import Mathlib

/-!
Verification of the Website-Translator repository (src/index.js and the
unnamed variant src/unnamed/part_000) against its specification.

JavaScript strings are modelled shallowly as `List Char`; the relevant
string primitives (`startsWith`, `includes`, `toLowerCase`, `trim`,
`split`, `join`, `replace`) are given executable Lean definitions that
mirror the ECMAScript behaviour on the (ASCII) inputs the program works
with.  The asynchronous translation provider is modelled as a function
`JStr → JStr → Option JStr` (`none` = the provider promise rejects), the
module-level `translationCache` `Map` as an association list threaded
through the functions, and a rejected promise escaping `translateText`
as an `Except.error` result.
-/

namespace WebsiteTranslator

/-- JavaScript strings, modelled as lists of characters. -/
abbrev JStr := List Char

/-- Models JavaScript `s.startsWith(pat)`: `startsWithJ pat s`. -/
def startsWithJ : JStr → JStr → Bool
  | [], _ => true
  | _ :: _, [] => false
  | p :: ps, c :: cs => (p == c) && startsWithJ ps cs

/-- Models JavaScript `s.includes(pat)`: `includesJ pat s` holds when
`pat` occurs as a contiguous substring of `s`. -/
def includesJ (pat : JStr) : JStr → Bool
  | [] => startsWithJ pat []
  | c :: rest => startsWithJ pat (c :: rest) || includesJ pat rest

/-- Models JavaScript `s.toLowerCase()` (ASCII range, which is all the
program relies on: the brand token is pure ASCII). -/
def toLowerJ (s : JStr) : JStr := s.map Char.toLower

/-- ASCII whitespace recognised by `String.prototype.trim`. -/
def isJsWS (c : Char) : Bool :=
  c == ' ' || c == '\t' || c == '\n' || c == '\r' ||
  c == Char.ofNat 11 || c == Char.ofNat 12

/-- Models `s.trim()`: strip leading and trailing whitespace. -/
def trimJ (s : JStr) : JStr :=
  ((s.dropWhile isJsWS).reverse.dropWhile isJsWS).reverse

/-- The brand token the program refuses to translate
(`"evaluating.tools"` in `src/index.js` line 21 / `part_000` line 20). -/
def brandTok : JStr := "evaluating.tools".toList

/-- Fuel-indexed worker for `splitTok`.  The fuel only serves to make the
recursion structural (each step consumes at least one character, so
`fuel = s.length` is always enough); the `fuel = 0, s ≠ []` fallback is
never reached from `splitTok`. -/
def splitTokF : Nat → JStr → List JStr
  | _, [] => [[]]
  | 0, s => [s]
  | fuel + 1, c :: rest =>
    if startsWithJ brandTok (c :: rest) then
      [] :: splitTokF fuel ((c :: rest).drop brandTok.length)
    else
      match splitTokF fuel rest with
      | [] => [[c]]
      | p :: ps => (c :: p) :: ps

/-- Models JavaScript `s.split("evaluating.tools")`: split on every
(non-overlapping, left-to-right) occurrence of the brand token; the
result always has at least one element. -/
def splitTok (s : JStr) : List JStr := splitTokF s.length s

/-- Models `parts.join("evaluating.tools")`. -/
def intercalateTok : List JStr → JStr
  | [] => []
  | [p] => p
  | p :: q :: rest => p ++ brandTok ++ intercalateTok (q :: rest)

/-- The module-level `translationCache` (`new Map()`), as an association
list; the most recent write is at the head. -/
abbrev Cache := List (JStr × JStr)

/-- The external translation provider
(`translate(text, { to: lang, forceTo: true })`): `some t` is a fulfilled
promise whose `res.text` is `t`; `none` is a rejected promise. -/
abbrev Provider := JStr → JStr → Option JStr

/-- The cache key `` `${lang}:${text}` `` of `translateText`. -/
def cacheKey (lang text : JStr) : JStr := lang ++ [':'] ++ text

/-- Models `translationCache.has`/`translationCache.get`, fused: the
first matching entry wins. -/
def cacheGet (c : Cache) (k : JStr) : Option JStr :=
  match c.find? (fun e => e.1 == k) with
  | some e => some e.2
  | none => none

/-- Models `translationCache.set(k, v)`. -/
def cacheSet (c : Cache) (k v : JStr) : Cache := (k, v) :: c

/-- The `parts.map((part, index) => index === parts.length - 1 ? part :
translate(part.trim(), ...))` step of the brand-token branch, combined by
`Promise.all`: every part except the last is trimmed and sent to the
provider; if any of those provider calls rejects, the whole step rejects
(`none`). -/
def translateParts (provider : Provider) (lang : JStr) :
    List JStr → Option (List JStr)
  | [] => some []
  | [p] => some [p]
  | p :: q :: rest =>
    match provider (trimJ p) lang, translateParts provider lang (q :: rest) with
    | some t, some ts => some (t :: ts)
    | _, _ => none

/-- Embedding of `translateText(text, lang)` from `src/index.js` lines
14-44 (the `part_000` variant lines 14-41 has the same logic).
Returns the result (`Except.error ()` when the returned promise
rejects, which the source can do on the brand-token branch), the cache
after the call, and the number of provider calls issued. -/
def translateText (provider : Provider) (cache : Cache) (text lang : JStr) :
    Except Unit JStr × Cache × Nat :=
  let key := cacheKey lang text
  match cacheGet cache key with
  | some v => (.ok v, cache, 0)
  | none =>
    if includesJ brandTok (toLowerJ text) then
      let parts := splitTok text
      match translateParts provider lang parts with
      | some tps =>
        let result := intercalateTok tps
        (.ok result, cacheSet cache key result, parts.length - 1)
      | none => (.error (), cache, parts.length - 1)
    else
      match provider (trimJ text) lang with
      | some r => (.ok r, cacheSet cache key r, 1)
      | none => (.ok text, cache, 1)

/-- Models `s.replace(/\\/g, "/")`: every backslash becomes a slash. -/
def replaceBackslashes (s : JStr) : JStr :=
  s.map (fun c => if c == '\\' then '/' else c)

/-- Models `s.replace(/\/+$/, "")`: remove all trailing slashes. -/
def dropTrailingSlashes (s : JStr) : JStr :=
  (s.reverse.dropWhile (fun c => c == '/')).reverse

/-- Models JavaScript `s.endsWith(pat)`: `endsWithJ pat s`. -/
def endsWithJ (pat s : JStr) : Bool := startsWithJ pat.reverse s.reverse

/-- Embedding of `constructCanonicalUrl(relativePath, lang)` from
`src/index.js` lines 47-52. -/
def constructCanonicalUrl (relativePath lang : JStr) : JStr :=
  let cleanPath := dropTrailingSlashes (replaceBackslashes relativePath)
  let cleanPath2 :=
    if cleanPath == ['.'] || cleanPath == ([] : JStr) then ([] : JStr)
    else if endsWithJ ".html".toList cleanPath then cleanPath
    else cleanPath ++ ['/']
  "https://evaluating.tools/".toList ++ lang ++ ['/'] ++ cleanPath2

/-- Embedding of the `cleanRelativePath` computation of `part_000` lines
112-114: remove trailing slashes, then remove leading dots. -/
def cleanRelativePathV2 (relativePath : JStr) : JStr :=
  (dropTrailingSlashes relativePath).dropWhile (fun c => c == '.')

/-- Embedding of the `canonicalUrl` computation of `part_000` lines
116-118. -/
def canonicalUrlV2 (relativePath lang : JStr) : JStr :=
  let clean := cleanRelativePathV2 relativePath
  if clean == ['.'] || clean == ([] : JStr) then
    "https://evaluating.tools/".toList ++ lang ++ ['/']
  else
    "https://evaluating.tools/".toList ++ lang ++ ['/'] ++ clean ++ ['/']

/-- Models JavaScript `s.replace(pat, rep)` with a *string* pattern:
only the first (leftmost) occurrence of `pat` is replaced; if `pat` does
not occur, the string is returned unchanged. -/
def replaceFirst (pat rep : JStr) : JStr → JStr
  | [] => if startsWithJ pat [] then rep else []
  | c :: rest =>
    if startsWithJ pat (c :: rest) then rep ++ (c :: rest).drop pat.length
    else c :: replaceFirst pat rep rest

/-- The internal-link segment `"/en/"` rewritten by the anchor handler. -/
def enSeg : JStr := "/en/".toList

/-- Embedding of the `href` rewriting of `translateAnchorElement`
(`src/index.js` lines 79-83; `part_000` lines 169-175 is the same):
`none` models an absent `href` attribute. -/
def translateAnchorHref (href : Option JStr) (lang : JStr) : Option JStr :=
  match href with
  | none => none
  | some h =>
    if includesJ enSeg h then
      some (replaceFirst enSeg (['/'] ++ lang ++ ['/']) h)
    else some h

/-- The two-character string `"Â©"` (U+00C2 U+00A9) that `src/index.js`
line 56 passes to `startsWith` — the file's bytes are `c3 82 c2 a9`,
i.e. a mojibake encoding of the copyright sign. -/
def mojibakeCopyright : JStr := [Char.ofNat 0xC2, Char.ofNat 0xA9]

/-- The copyright sign `"©"` (U+00A9) that `part_000` line 49 passes to
`startsWith`. -/
def copyrightSign : JStr := [Char.ofNat 0xA9]

/-- The skip condition of `translateElementText` in `src/index.js` line
56: empty trimmed text, trimmed text starting with the (mojibake)
copyright string, or brand token in the lowercased (untrimmed) text. -/
def skipElementTextIndex (textContent : JStr) : Bool :=
  (trimJ textContent).isEmpty
    || startsWithJ mojibakeCopyright (trimJ textContent)
    || includesJ brandTok (toLowerJ textContent)

/-- The skip condition of `translateElementText` in `part_000` lines
44-51: empty trimmed text, trimmed text starting with the copyright
sign, or brand token in the lowercased trimmed text. -/
def skipElementTextPart (textContent : JStr) : Bool :=
  let text := trimJ textContent
  text.isEmpty
    || startsWithJ copyrightSign text
    || includesJ brandTok (toLowerJ text)

/-- Embedding of `translateElementText(element, lang)` from `part_000`
lines 44-55, in terms of the element's `textContent`: the first result
component is `.ok none` when the element is left unchanged (the skip
branch), `.ok (some t)` when its text is replaced by `t`. -/
def translateElementTextPart (provider : Provider) (cache : Cache)
    (textContent lang : JStr) : Except Unit (Option JStr) × Cache :=
  if skipElementTextPart textContent then (.ok none, cache)
  else
    match translateText provider cache (trimJ textContent) lang with
    | (.ok t, cache2, _) => (.ok (some t), cache2)
    | (.error _, cache2, _) => (.error (), cache2)

/-- A `<link>` element in a document head, with the three attributes the
program reads and writes. -/
structure LinkTag where
  rel : JStr
  hreflang : JStr
  href : JStr
deriving DecidableEq

/-- The selector `link[rel="alternate"][hreflang="${lang}"]` as a
predicate on link tags. -/
def isAltFor (lang : JStr) (l : LinkTag) : Bool :=
  l.rel == "alternate".toList && l.hreflang == lang

/-- The alternate-link `href` written by `part_000` line 132:
`` `https://evaluating.tools/${alternateLang}/${relativePath}` `` — the
raw relative path, not the cleaned canonical URL. -/
def altHrefRaw (lang relativePath : JStr) : JStr :=
  "https://evaluating.tools/".toList ++ lang ++ ['/'] ++ relativePath

/-- Embedding of the alternate-link loop run on each *generated*
document by `part_000` lines 123-135: for every registry locale code
(regardless of its `createnew` flag), if the head has no
`link[rel="alternate"][hreflang=code]` yet, append one with the raw-path
`href`.  The head is modelled as its list of link tags. -/
def addAlternates (relativePath : JStr) (codes : List JStr)
    (links : List LinkTag) : List LinkTag :=
  codes.foldl (fun ls lang =>
    if ls.any (isAltFor lang) then ls
    else ls ++ [⟨"alternate".toList, lang, altHrefRaw lang relativePath⟩]) links

/-- Embedding of the alternate-link loop of `src/index.js` lines
101-111.  It differs from the `part_000` loop in two ways: the `href` is
`constructCanonicalUrl(relativePath, lang)`, and — crucially — it runs on
the *source* document (`originalDom`), which is never serialized or
written out, so its effect is discarded; the generated output documents
of `src/index.js` receive no alternate links at all. -/
def addAlternatesSourceDoc (relativePath : JStr) (codes : List JStr)
    (links : List LinkTag) : List LinkTag :=
  codes.foldl (fun ls lang =>
    if ls.any (isAltFor lang) then ls
    else ls ++ [⟨"alternate".toList, lang, constructCanonicalUrl relativePath lang⟩]) links

/-- One registry entry of `languages.json` (`unfilteredlanguages.data`):
a locale code and the `createnew` flag. -/
structure LangObj where
  code : JStr
  createnew : Bool

/-- One iteration of the per-locale generation loop of `translateHTML`
(`src/index.js` lines 114-185, `part_000` lines 79-193).  The body of
the `try` block — which builds, translates and writes one output
document — is abstracted as `step`, returning `.ok out` when the
document is produced and `.error e` when any exception is thrown; the
`catch` logs the message (second accumulator component) and the loop
continues.  Locales with `createnew = false` are skipped before the
`try`. -/
def localeStep {α : Type} (step : JStr → Except JStr α)
    (acc : List (JStr × α) × List JStr) (l : LangObj) :
    List (JStr × α) × List JStr :=
  if !l.createnew then acc
  else
    match step l.code with
    | .ok d => (acc.1 ++ [(l.code, d)], acc.2)
    | .error e => (acc.1, acc.2 ++ [e])

/-- Embedding of the whole per-locale generation loop: fold `localeStep`
over the registry, collecting the produced outputs and the logged
per-locale errors. -/
def processLocales {α : Type} (step : JStr → Except JStr α)
    (registry : List LangObj) : List (JStr × α) × List JStr :=
  registry.foldl (localeStep step) ([], [])

/-- Reference description of the brand-token mapping, used to
characterize `translateParts` under a never-failing provider `f`: every
part except the last is trimmed and translated, the last part is kept
unchanged. -/
def mapExceptLast (f : JStr → JStr) : List JStr → List JStr
  | [] => []
  | [p] => [p]
  | p :: q :: rest => f (trimJ p) :: mapExceptLast f (q :: rest)

/-! ### Helper lemmas about the string primitives and the cache -/

theorem cacheGet_cacheSet (c : Cache) (k v : JStr) :
    cacheGet (cacheSet c k v) k = some v := by
  simp [cacheGet, cacheSet, List.find?]

theorem startsWithJ_append_self (pat s : JStr) :
    startsWithJ pat (pat ++ s) = true := by
  induction pat with
  | nil => simp [startsWithJ]
  | cons p ps ih => simp [startsWithJ, ih]

theorem includesJ_of_startsWithJ {pat s : JStr}
    (h : startsWithJ pat s = true) : includesJ pat s = true := by
  cases s with
  | nil => simpa [includesJ] using h
  | cons c rest => simp [includesJ, h]

theorem includesJ_mid (pat a b : JStr) :
    includesJ pat (a ++ pat ++ b) = true := by
  induction a with
  | nil => simpa using includesJ_of_startsWithJ (startsWithJ_append_self pat b)
  | cons c a' ih => simpa [includesJ] using Or.inr ih

theorem startsWithJ_toLower {pat : JStr} (hfix : toLowerJ pat = pat) :
    ∀ {s : JStr}, startsWithJ pat s = true →
      startsWithJ pat (toLowerJ s) = true := by
  induction pat with
  | nil => intro s _; simp [startsWithJ]
  | cons p ps ih =>
    intro s h
    cases s with
    | nil => simp [startsWithJ] at h
    | cons c cs =>
      simp only [startsWithJ, Bool.and_eq_true, beq_iff_eq] at h
      obtain ⟨rfl, h2⟩ := h
      simp only [toLowerJ, List.map_cons, List.cons.injEq] at hfix
      obtain ⟨h3, h4⟩ := hfix
      simp only [toLowerJ, List.map_cons, startsWithJ, Bool.and_eq_true, beq_iff_eq]
      exact ⟨h3.symm, ih h4 h2⟩

theorem includesJ_toLower {pat : JStr} (hfix : toLowerJ pat = pat) :
    ∀ {s : JStr}, includesJ pat s = true →
      includesJ pat (toLowerJ s) = true := by
  intro s h
  induction s with
  | nil => simpa [toLowerJ] using h
  | cons c cs ih =>
    simp only [includesJ, Bool.or_eq_true] at h
    rcases h with h | h
    · exact includesJ_of_startsWithJ (startsWithJ_toLower hfix h)
    · simpa [toLowerJ, includesJ] using Or.inr (ih h)

theorem brandTok_toLower_fixed : toLowerJ brandTok = brandTok := by decide

/-! ### Lemmas about the brand-token split -/

theorem splitTokF_ne_nil (fuel : Nat) (s : JStr) : splitTokF fuel s ≠ [] := by
  match fuel, s with
  | _, [] => simp [splitTokF]
  | 0, _ :: _ => simp [splitTokF]
  | fuel + 1, c :: rest =>
    simp only [splitTokF]
    split
    · simp
    · cases h : splitTokF fuel rest <;> simp [h]

theorem splitTokF_eq_single {fuel : Nat} {s : JStr} (hb : s.length ≤ fuel)
    (h : includesJ brandTok s = false) : splitTokF fuel s = [s] := by
  induction fuel generalizing s with
  | zero =>
    cases s with
    | nil => simp [splitTokF]
    | cons c rest => simp at hb
  | succ fuel ih =>
    cases s with
    | nil => simp [splitTokF]
    | cons c rest =>
      simp only [includesJ, Bool.or_eq_false_iff] at h
      have hrest : splitTokF fuel rest = [rest] := by
        refine ih ?_ h.2
        simpa using hb
      simp [splitTokF, h.1, hrest]

theorem two_le_splitTokF {fuel : Nat} {s : JStr} (hb : s.length ≤ fuel)
    (h : includesJ brandTok s = true) : 2 ≤ (splitTokF fuel s).length := by
  induction fuel generalizing s with
  | zero =>
    cases s with
    | nil => simp [includesJ, startsWithJ, brandTok] at h
    | cons c rest => simp at hb
  | succ fuel ih =>
    cases s with
    | nil => simp [includesJ, startsWithJ, brandTok] at h
    | cons c rest =>
      simp only [splitTokF]
      split
      · have := splitTokF_ne_nil fuel ((c :: rest).drop brandTok.length)
        have hpos := List.length_pos.mpr this
        simp only [List.length_cons]
        omega
      · rename_i hns
        simp only [includesJ, Bool.or_eq_true] at h
        rcases h with h | h
        · simp [hns] at h
        · have hlen : rest.length ≤ fuel := by simpa using hb
          have h2 := ih hlen h
          cases hrest : splitTokF fuel rest with
          | nil => exact absurd hrest (splitTokF_ne_nil fuel rest)
          | cons p ps =>
            simp only [hrest, List.length_cons] at h2 ⊢
            omega

theorem splitTok_eq_single {s : JStr} (h : includesJ brandTok s = false) :
    splitTok s = [s] :=
  splitTokF_eq_single (Nat.le_refl _) h

theorem two_le_splitTok {s : JStr} (h : includesJ brandTok s = true) :
    2 ≤ (splitTok s).length :=
  two_le_splitTokF (Nat.le_refl _) h

theorem includesJ_intercalateTok {ts : List JStr} (h : 2 ≤ ts.length) :
    includesJ brandTok (intercalateTok ts) = true := by
  match ts with
  | [] => simp at h
  | [p] => simp at h
  | p :: q :: rest =>
    simpa [intercalateTok] using includesJ_mid brandTok p (intercalateTok (q :: rest))

/-! ### Lemmas about `translateParts` -/

theorem translateParts_eq_some {provider : Provider} {f : JStr → JStr}
    {lang : JStr} (hp : ∀ s, provider s lang = some (f s)) :
    ∀ ps : List JStr, translateParts provider lang ps = some (mapExceptLast f ps)
  | [] => by simp [translateParts, mapExceptLast]
  | [p] => by simp [translateParts, mapExceptLast]
  | p :: q :: rest => by
    have ih := translateParts_eq_some hp (q :: rest)
    simp [translateParts, mapExceptLast, hp, ih]

theorem mapExceptLast_length (f : JStr → JStr) :
    ∀ ps : List JStr, (mapExceptLast f ps).length = ps.length
  | [] => by simp [mapExceptLast]
  | [p] => by simp [mapExceptLast]
  | p :: q :: rest => by
    have ih := mapExceptLast_length f (q :: rest)
    simp [mapExceptLast, ih]

theorem mapExceptLast_getLast (f : JStr → JStr) :
    ∀ ps : List JStr, (mapExceptLast f ps).getLast? = ps.getLast?
  | [] => by simp [mapExceptLast]
  | [p] => by simp [mapExceptLast]
  | p :: q :: rest => by
    have ih := mapExceptLast_getLast f (q :: rest)
    have h1 : mapExceptLast f (p :: q :: rest) =
        f (trimJ p) :: mapExceptLast f (q :: rest) := by simp [mapExceptLast]
    cases hm : mapExceptLast f (q :: rest) with
    | nil =>
      have := mapExceptLast_length f (q :: rest)
      simp [hm] at this
    | cons m ms =>
      rw [h1, hm, List.getLast?_cons_cons, ← hm, ih, List.getLast?_cons_cons]

/-! ### Lemmas about `replaceFirst` -/

theorem replaceFirst_self (pat rep b : JStr) :
    replaceFirst pat rep (pat ++ b) = rep ++ b := by
  cases pat with
  | nil =>
    cases b with
    | nil => simp [replaceFirst, startsWithJ]
    | cons c rest => simp [replaceFirst, startsWithJ]
  | cons p ps =>
    have hs : startsWithJ (p :: ps) ((p :: ps) ++ b) = true :=
      startsWithJ_append_self _ _
    simp only [List.cons_append] at hs ⊢
    simp only [replaceFirst, hs, if_true]
    congr 1
    have : (p :: (ps ++ b)) = (p :: ps) ++ b := by simp
    rw [this, List.drop_left]

theorem replaceFirst_at (pat rep : JStr) :
    ∀ (a b : JStr),
      (∀ i, i < a.length → startsWithJ pat ((a ++ pat ++ b).drop i) = false) →
      replaceFirst pat rep (a ++ pat ++ b) = a ++ rep ++ b
  | [], b, _ => by simpa using replaceFirst_self pat rep b
  | c :: a', b, hfirst => by
    have h0 : startsWithJ pat (c :: (a' ++ pat ++ b)) = false := by
      simpa using hfirst 0 (by simp)
    have ih := replaceFirst_at pat rep a' b (fun i hi => by
      have h := hfirst (i + 1) (by simpa using Nat.succ_lt_succ hi)
      simpa using h)
    simp only [List.cons_append, List.append_assoc] at h0 ⊢
    simp only [replaceFirst, h0, if_false, Bool.false_eq_true]
    simpa using ih

/-! ### Lemmas about the alternate-link loop -/

theorem addAlternates_cons (rp lang : JStr) (codes : List JStr)
    (links : List LinkTag) :
    addAlternates rp (lang :: codes) links =
      addAlternates rp codes
        (if links.any (isAltFor lang) then links
         else links ++ [⟨"alternate".toList, lang, altHrefRaw lang rp⟩]) := rfl

theorem addAlternates_keep (rp c : JStr) (t : LinkTag) :
    ∀ (codes : List JStr) (links : List LinkTag),
      links.filter (isAltFor c) = [t] →
      (addAlternates rp codes links).filter (isAltFor c) = [t]
  | [], links, h => h
  | lang :: codes, links, h => by
    have hmemc : links.any (isAltFor c) = true := by
      have ht : t ∈ links.filter (isAltFor c) := by rw [h]; simp
      rcases List.mem_filter.mp ht with ⟨hmem, hp⟩
      exact List.any_eq_true.mpr ⟨t, hmem, hp⟩
    rw [addAlternates_cons]
    by_cases hlc : lang = c
    · subst hlc
      rw [if_pos hmemc]
      exact addAlternates_keep rp _ t codes links h
    · by_cases hany : links.any (isAltFor lang) = true
      · rw [if_pos hany]
        exact addAlternates_keep rp c t codes links h
      · rw [if_neg hany]
        apply addAlternates_keep rp c t codes
        rw [List.filter_append, h]
        simp [isAltFor, hlc]

theorem addAlternates_adds (rp c : JStr) :
    ∀ (codes : List JStr) (links : List LinkTag),
      links.filter (isAltFor c) = [] → c ∈ codes →
      (addAlternates rp codes links).filter (isAltFor c) =
        [⟨"alternate".toList, c, altHrefRaw c rp⟩]
  | [], _, _, hc => by simp at hc
  | lang :: codes, links, h0, hc => by
    rw [addAlternates_cons]
    by_cases hlc : lang = c
    · subst hlc
      have hany : links.any (isAltFor lang) = false := by
        rw [List.any_eq_false]
        intro x hx hpx
        have : x ∈ links.filter (isAltFor lang) := List.mem_filter.mpr ⟨hx, hpx⟩
        rw [h0] at this
        simp at this
      rw [if_neg (by simp [hany])]
      apply addAlternates_keep
      rw [List.filter_append, h0]
      simp [isAltFor]
    · have hc' : c ∈ codes := by
        rcases List.mem_cons.mp hc with h | h
        · exact absurd h.symm hlc
        · exact h
      by_cases hany : links.any (isAltFor lang) = true
      · rw [if_pos hany]
        exact addAlternates_adds rp c codes links h0 hc'
      · rw [if_neg hany]
        apply addAlternates_adds rp c codes _ _ hc'
        rw [List.filter_append, h0]
        simp [isAltFor, hlc]

/-! ### Lemmas about the per-locale loop -/

theorem foldl_localeStep_fst_indep {α : Type} (step : JStr → Except JStr α) :
    ∀ (r : List LangObj) (o : List (JStr × α)) (e1 e2 : List JStr),
      (List.foldl (localeStep step) (o, e1) r).1 =
        (List.foldl (localeStep step) (o, e2) r).1
  | [], _, _, _ => rfl
  | l :: r, o, e1, e2 => by
    simp only [List.foldl_cons, localeStep]
    cases hc : l.createnew with
    | false => exact foldl_localeStep_fst_indep step r o e1 e2
    | true =>
      simp only [Bool.not_true, Bool.false_eq_true, if_false]
      cases hs : step l.code with
      | ok d => exact foldl_localeStep_fst_indep step r (o ++ [(l.code, d)]) e1 e2
      | error e => exact foldl_localeStep_fst_indep step r o (e1 ++ [e]) (e2 ++ [e])

theorem foldl_localeStep_logs_mono {α : Type} (step : JStr → Except JStr α) :
    ∀ (r : List LangObj) (acc : List (JStr × α) × List JStr) {e : JStr},
      e ∈ acc.2 → e ∈ (List.foldl (localeStep step) acc r).2
  | [], _, _, h => h
  | l :: r, acc, e, h => by
    simp only [List.foldl_cons, localeStep]
    cases hc : l.createnew with
    | false => exact foldl_localeStep_logs_mono step r acc h
    | true =>
      simp only [Bool.not_true, Bool.false_eq_true, if_false]
      cases hs : step l.code with
      | ok d => exact foldl_localeStep_logs_mono step r _ h
      | error e2 =>
        refine foldl_localeStep_logs_mono step r _ ?_
        simp [h]

/-! ### Claim C10 -/

/-- **C10.** For every text whose lowercase form contains
"evaluating.tools" but which does not contain the literal lowercase
token itself, and every locale, `translateText` (on a cache miss)
returns the input text completely unchanged, sends no segment to the
provider, and caches the unchanged text under the `(locale, text)`
key: the split on the literal token finds nothing, producing a single
part that is the "last" part and is therefore kept as is. -/
theorem brand_case_mismatch_returns_unchanged
    (provider : Provider) (cache : Cache) (text lang : JStr)
    (hmiss : cacheGet cache (cacheKey lang text) = none)
    (hlower : includesJ brandTok (toLowerJ text) = true)
    (hlit : includesJ brandTok text = false) :
    translateText provider cache text lang =
      (.ok text, cacheSet cache (cacheKey lang text) text, 0) := by
  have hsplit : splitTok text = [text] := splitTok_eq_single hlit
  simp only [translateText, hmiss, hlower, if_true, hsplit]
  simp [translateParts, intercalateTok]

/-- Witness for C10: the text "Visit EVALUATING.TOOLS" contains the
brand token only in upper case; `translateText` returns it unchanged
with zero provider calls and caches it. -/
theorem brand_case_mismatch_returns_unchanged_witness :
    translateText (fun s _ => some ('X' :: s)) []
        "Visit EVALUATING.TOOLS".toList "fr".toList =
      (.ok "Visit EVALUATING.TOOLS".toList,
       [("fr:Visit EVALUATING.TOOLS".toList, "Visit EVALUATING.TOOLS".toList)],
       0) := by
  have h := brand_case_mismatch_returns_unchanged (fun s _ => some ('X' :: s))
    [] "Visit EVALUATING.TOOLS".toList "fr".toList rfl (by decide) (by decide)
  rw [h]; rfl

/-! ### Claim C1 -/

/-- **C1, counterexample.** The claim quantifies over texts containing
the brand token *case-insensitively*, but for a text that contains the
token only in upper case (here "See EVALUATING.TOOLS") the split on the
literal token is a no-op and the returned string does not contain the
brand token verbatim anywhere, refuting the claim's final conjunct. -/
theorem brand_split_counterexample :
    (translateText (fun s _ => some ('X' :: s)) []
        "See EVALUATING.TOOLS".toList "fr".toList).1 =
      .ok "See EVALUATING.TOOLS".toList ∧
    includesJ brandTok (toLowerJ "See EVALUATING.TOOLS".toList) = true ∧
    includesJ brandTok "See EVALUATING.TOOLS".toList = false :=
  ⟨rfl, by decide, by decide⟩

/-- **C1 (amended).** For every input text that contains the literal
brand token "evaluating.tools" and every locale, on a cache miss with a
provider that always succeeds, `translateText` splits the text on every
occurrence of the literal token, translates each split segment except
the last individually (after trimming it), rejoins the translated
segments with the literal token verbatim between them, caches the
joined result under the original key, and the returned string contains
the brand token verbatim, inserted at the same relative segment
positions as in the input (same number of segments, last segment
unchanged). -/
theorem brand_split_path (provider : Provider) (f : JStr → JStr)
    (cache : Cache) (text lang : JStr)
    (hp : ∀ s, provider s lang = some (f s))
    (hmiss : cacheGet cache (cacheKey lang text) = none)
    (hlit : includesJ brandTok text = true) :
    translateText provider cache text lang =
      (.ok (intercalateTok (mapExceptLast f (splitTok text))),
       cacheSet cache (cacheKey lang text)
         (intercalateTok (mapExceptLast f (splitTok text))),
       (splitTok text).length - 1) ∧
    (mapExceptLast f (splitTok text)).length = (splitTok text).length ∧
    (mapExceptLast f (splitTok text)).getLast? = (splitTok text).getLast? ∧
    includesJ brandTok (intercalateTok (mapExceptLast f (splitTok text))) = true := by
  have hlow := includesJ_toLower brandTok_toLower_fixed hlit
  have hparts := translateParts_eq_some hp (splitTok text)
  have hlen2 : 2 ≤ (splitTok text).length := two_le_splitTok hlit
  refine ⟨?_, mapExceptLast_length f _, mapExceptLast_getLast f _, ?_⟩
  · simp only [translateText, hmiss, hlow, if_true, hparts]
  · apply includesJ_intercalateTok
    rw [mapExceptLast_length]
    exact hlen2

/-- Witness for C1 (amended) at the text "go to evaluating.tools now",
locale "fr", with the provider prepending an "X": "go to " is trimmed
and translated, " now" (the last segment) is untouched, the token is
reinserted verbatim, and the whole is cached under the original key. -/
theorem brand_split_path_witness :
    translateText (fun s _ => some ('X' :: s)) []
        "go to evaluating.tools now".toList "fr".toList =
      (.ok "Xgo toevaluating.tools now".toList,
       [("fr:go to evaluating.tools now".toList,
         "Xgo toevaluating.tools now".toList)], 1) := by
  have h := (brand_split_path (fun s _ => some ('X' :: s)) (fun s => 'X' :: s)
    [] "go to evaluating.tools now".toList "fr".toList (fun s => rfl) rfl
    (by decide)).1
  rw [h]; rfl

/-! ### Claim C3 -/

/-- **C3, counterexample.** The cache key is built from the *untrimmed*
text (`` `${lang}:${text}` ``, `src/index.js` line 15): after a call
with "hi" has populated the cache, a call with " hi" (same trimmed
text) still misses the cache and issues a provider call, and the key
for " hi" differs from the key for its trimmed form. -/
theorem trim_cache_key_counterexample :
    (translateText (fun s _ => some ('X' :: s)) [] "hi".toList "fr".toList).2.2 = 1 ∧
    (translateText (fun s _ => some ('X' :: s))
        (translateText (fun s _ => some ('X' :: s)) [] "hi".toList "fr".toList).2.1
        " hi".toList "fr".toList).2.2 = 1 ∧
    cacheKey "fr".toList " hi".toList ≠ cacheKey "fr".toList (trimJ " hi".toList) :=
  ⟨rfl, rfl, by decide⟩

/-- **C3 (amended).** The cache key is the pair of the locale and the
*original, untrimmed* text; only the argument of the provider call is
trimmed.  On a hit the cached value is returned with no provider call;
on a miss (non-brand path) the provider receives the trimmed text and
the result is cached under the untrimmed key. -/
theorem cache_key_untrimmed (provider : Provider) (cache : Cache)
    (text lang : JStr) :
    cacheKey lang text = lang ++ [':'] ++ text ∧
    (∀ v, cacheGet cache (cacheKey lang text) = some v →
      translateText provider cache text lang = (.ok v, cache, 0)) ∧
    (cacheGet cache (cacheKey lang text) = none →
      includesJ brandTok (toLowerJ text) = false →
      ∀ r, provider (trimJ text) lang = some r →
        translateText provider cache text lang =
          (.ok r, cacheSet cache (cacheKey lang text) r, 1)) := by
  refine ⟨rfl, ?_, ?_⟩
  · intro v hv
    simp only [translateText, hv]
  · intro hmiss hnb r hr
    simp only [translateText, hmiss, hnb, Bool.false_eq_true, if_false, hr]

/-- Witness for C3 (amended): a hit on the exact key returns the cached
value with no provider call, and a miss sends the trimmed text to the
provider and stores the result under the untrimmed key. -/
theorem cache_key_untrimmed_witness :
    translateText (fun s _ => some ('X' :: s))
        [("fr:hi".toList, "cached".toList)] "hi".toList "fr".toList =
      (.ok "cached".toList, [("fr:hi".toList, "cached".toList)], 0) ∧
    translateText (fun s _ => some ('X' :: s)) [] " hi ".toList "fr".toList =
      (.ok "Xhi".toList, [("fr: hi ".toList, "Xhi".toList)], 1) := by
  constructor
  · have h := (cache_key_untrimmed (fun s _ => some ('X' :: s))
      [("fr:hi".toList, "cached".toList)] "hi".toList "fr".toList).2.1
      "cached".toList rfl
    rw [h]
  · have h := (cache_key_untrimmed (fun s _ => some ('X' :: s))
      [] " hi ".toList "fr".toList).2.2 rfl (by decide) "Xhi".toList rfl
    rw [h]; rfl

/-! ### Claim C4 -/

/-- **C4, counterexample.** On the brand-token split path the provider
calls are not wrapped in the `try`/`catch` (`src/index.js` lines 21-33
versus 36-43): with a failing provider, `translateText` on
"x evaluating.tools y" rejects (raises to its caller) instead of
returning the original text. -/
theorem failure_policy_counterexample :
    translateText (fun _ _ => none) [] "x evaluating.tools y".toList
        "fr".toList = (.error (), [], 1) := rfl

/-- **C4 (amended).** On a cache miss, if the provider call fails: on
the non-brand path `translateText` returns the original untranslated
text, does not raise, and stores no cache entry; but on the brand-token
split path the failure is *not* caught — the returned promise rejects
(models `Promise.all` rejection propagating out of the unprotected
branch) — and no cache entry is stored either. -/
theorem failure_policy (provider : Provider) (cache : Cache)
    (text lang : JStr)
    (hmiss : cacheGet cache (cacheKey lang text) = none) :
    (includesJ brandTok (toLowerJ text) = false →
      provider (trimJ text) lang = none →
      translateText provider cache text lang = (.ok text, cache, 1)) ∧
    (includesJ brandTok (toLowerJ text) = true →
      translateParts provider lang (splitTok text) = none →
      translateText provider cache text lang =
        (.error (), cache, (splitTok text).length - 1)) := by
  constructor
  · intro hnb hfail
    simp only [translateText, hmiss, hnb, Bool.false_eq_true, if_false, hfail]
  · intro hb hfail
    simp only [translateText, hmiss, hb, if_true, hfail]

/-- Witness for C4 (amended): with an always-failing provider, the
plain text "hi" is returned unchanged with no cache entry, while the
brand text "x evaluating.tools y" makes the call reject. -/
theorem failure_policy_witness :
    translateText (fun _ _ => none) [] "hi".toList "fr".toList =
      (.ok "hi".toList, [], 1) ∧
    translateText (fun _ _ => none) [] "a evaluating.tools b".toList
        "fr".toList = (.error (), [], 1) := by
  constructor
  · exact (failure_policy (fun _ _ => none) [] "hi".toList "fr".toList rfl).1
      (by decide) rfl
  · have h := (failure_policy (fun _ _ => none) []
      "a evaluating.tools b".toList "fr".toList rfl).2 (by decide) rfl
    rw [h]
    rfl

/-! ### Claim C9 -/

/-- **C9, counterexample.** With a provider that always fails, two
successive `translateText` calls with the same plain text and locale
each issue one provider call (failures are never cached, so the second
call is *not* a cache hit): two provider calls in total, refuting "at
most one underlying provider call in total". -/
theorem double_call_counterexample :
    (translateText (fun _ _ => none) [] "hi".toList "fr".toList).2.2 = 1 ∧
    (translateText (fun _ _ => none)
        (translateText (fun _ _ => none) [] "hi".toList "fr".toList).2.1
        "hi".toList "fr".toList).2.2 = 1 :=
  ⟨rfl, rfl⟩

/-- **C9 (amended).** If every provider call succeeds, then after a
first `translateText` call with `(text, lang)` has returned a value,
the second call with the same arguments is a cache hit: it returns the
same value, leaves the cache unchanged, and performs zero provider
calls.  (Without the success hypothesis this fails: failed attempts are
not cached and are retried; and a brand text with `k` token occurrences
already issues `k` provider calls in the first call.) -/
theorem second_call_cache_hit (provider : Provider) (f : JStr → JStr)
    (cache : Cache) (text lang : JStr)
    (hp : ∀ s, provider s lang = some (f s))
    (r : JStr) (c1 : Cache) (n : Nat)
    (h : translateText provider cache text lang = (.ok r, c1, n)) :
    translateText provider c1 text lang = (.ok r, c1, 0) := by
  have hget : cacheGet c1 (cacheKey lang text) = some r := by
    cases hc : cacheGet cache (cacheKey lang text) with
    | some v =>
      simp only [translateText, hc, Prod.mk.injEq, Except.ok.injEq] at h
      obtain ⟨h1, h2, -⟩ := h
      rw [← h2, ← h1]
      exact hc
    | none =>
      by_cases hb : includesJ brandTok (toLowerJ text) = true
      · have hparts := translateParts_eq_some hp (splitTok text)
        simp only [translateText, hc, hb, if_true, hparts, Prod.mk.injEq,
          Except.ok.injEq] at h
        obtain ⟨h1, h2, -⟩ := h
        rw [← h2, ← h1]
        exact cacheGet_cacheSet _ _ _
      · have hr := hp (trimJ text)
        simp only [translateText, hc, Bool.not_eq_true] at h
        rw [Bool.not_eq_true] at hb
        simp only [hb, Bool.false_eq_true, if_false, hr, Prod.mk.injEq,
          Except.ok.injEq] at h
        obtain ⟨h1, h2, -⟩ := h
        rw [← h2, ← h1]
        exact cacheGet_cacheSet _ _ _
  simp only [translateText, hget]

/-- Witness for C9 (amended): after translating "hi" to "Xhi" once, the
second identical call returns "Xhi" from the cache with zero provider
calls. -/
theorem second_call_cache_hit_witness :
    translateText (fun s _ => some ('X' :: s))
        [("fr:hi".toList, "Xhi".toList)] "hi".toList "fr".toList =
      (.ok "Xhi".toList, [("fr:hi".toList, "Xhi".toList)], 0) :=
  second_call_cache_hit (fun s _ => some ('X' :: s)) (fun s => 'X' :: s)
    [] "hi".toList "fr".toList (fun _ => rfl) "Xhi".toList
    [("fr:hi".toList, "Xhi".toList)] 1 rfl

/-! ### Claim C5 -/

/-- **C5, counterexample.** `constructCanonicalUrl` does not always
produce `https://{domain}/{locale}/{cleaned}/`: a path ending in
".html" gets no trailing slash, and leading dot-segments are not
stripped (`"./a"` keeps its `./`).  The `part_000` inline variant
strips leading dots instead, leaving a double slash for `"./a"`. -/
theorem canonical_url_counterexample :
    constructCanonicalUrl "a/b.html".toList "fr".toList =
      "https://evaluating.tools/fr/a/b.html".toList ∧
    constructCanonicalUrl "./a".toList "fr".toList =
      "https://evaluating.tools/fr/./a/".toList ∧
    canonicalUrlV2 "./a".toList "fr".toList =
      "https://evaluating.tools/fr//a/".toList :=
  ⟨rfl, rfl, rfl⟩

/-- **C5 (amended).** In `constructCanonicalUrl`, the cleaned relative
path normalizes backslashes to slashes and strips trailing slashes
(leading dot-segments are *not* stripped); a root path ("." or empty)
yields `https://evaluating.tools/{lang}/` with no further segment; a
non-root path such as "a/b" yields `.../{lang}/a/b/` with a trailing
slash, except that a path ending in ".html" keeps no trailing slash:
"a/b.html" yields `.../{lang}/a/b.html`. -/
theorem canonical_url_rules (lang : JStr) :
    constructCanonicalUrl ".".toList lang =
      "https://evaluating.tools/".toList ++ lang ++ "/".toList ∧
    constructCanonicalUrl [] lang =
      "https://evaluating.tools/".toList ++ lang ++ "/".toList ∧
    constructCanonicalUrl "a/b".toList lang =
      "https://evaluating.tools/".toList ++ lang ++ "/a/b/".toList ∧
    constructCanonicalUrl "a/b.html".toList lang =
      "https://evaluating.tools/".toList ++ lang ++ "/a/b.html".toList := by
  refine ⟨?_, ?_, ?_, ?_⟩ <;>
    simp [constructCanonicalUrl, replaceBackslashes, dropTrailingSlashes,
      endsWithJ, startsWithJ, List.append_assoc]

/-! ### Claim C2 -/

/-- **C2, counterexample.** In the `part_000` variant the alternate
link that the generated document receives for locale "fr" and the root
relative path "." has `href` `https://evaluating.tools/fr/.` — the raw
relative path — which differs from the canonical URL
`https://evaluating.tools/fr/` built by either variant's canonical
construction.  (In the `src/index.js` variant the generated documents
receive no alternate links at all: its alternate loop runs on the
discarded source DOM, see `addAlternatesSourceDoc`.) -/
theorem alternates_counterexample :
    addAlternates ".".toList ["fr".toList] [] =
      [⟨"alternate".toList, "fr".toList,
        "https://evaluating.tools/fr/.".toList⟩] ∧
    altHrefRaw "fr".toList ".".toList ≠
      constructCanonicalUrl ".".toList "fr".toList ∧
    altHrefRaw "fr".toList ".".toList ≠ canonicalUrlV2 ".".toList "fr".toList :=
  ⟨rfl, by decide, by decide⟩

/-- **C2 (amended).** After the `part_000` per-locale alternate loop
runs over a generated document whose head initially has no alternate
link for registry code `c`, the head contains exactly one
`link[rel="alternate"][hreflang=c]` (no duplicates), and its `href` is
`https://evaluating.tools/{c}/{relativePath}` built from the *raw*
relative path (not the cleaned canonical URL).  This holds for every
registry code, including those with `createnew = false`, since the loop
iterates the unfiltered registry. -/
theorem alternates_unique_raw_href (rp c : JStr) (codes : List JStr)
    (links : List LinkTag) (h0 : links.filter (isAltFor c) = [])
    (hc : c ∈ codes) :
    (addAlternates rp codes links).filter (isAltFor c) =
      [⟨"alternate".toList, c, altHrefRaw c rp⟩] :=
  addAlternates_adds rp c codes links h0 hc

/-- Witness for C2 (amended): processing the registry codes
`["de", "fr"]` over an empty head and relative path "a" yields exactly
one alternate link for "fr" with the raw-path `href`. -/
theorem alternates_unique_raw_href_witness :
    (addAlternates "a".toList ["de".toList, "fr".toList] []).filter
        (isAltFor "fr".toList) =
      [⟨"alternate".toList, "fr".toList,
        "https://evaluating.tools/fr/a".toList⟩] := by
  have h := alternates_unique_raw_href "a".toList "fr".toList
    ["de".toList, "fr".toList] [] rfl (by decide)
  rw [h]
  rfl

/-! ### Claim C6 -/

/-- **C6.** The skip condition of `translateElementText` diverges
between the two variants on a text that starts with the genuine
copyright sign "©": `src/index.js` line 56 compares against the
mojibake two-character string "Â©" (bytes `c3 82 c2 a9` in the file),
so it does *not* skip "© 2024 Example" — contradicting the spec — while
`part_000` line 49 compares against "©" and skips it, leaving the
element unchanged (no-op, cache untouched). -/
theorem copyright_skip_divergence :
    skipElementTextIndex ('©' :: " 2024 Example".toList) = false ∧
    skipElementTextPart ('©' :: " 2024 Example".toList) = true ∧
    translateElementTextPart (fun s _ => some s) []
        ('©' :: " 2024 Example".toList) "fr".toList = (.ok none, []) :=
  ⟨by decide, by decide, rfl⟩

/-! ### Claim C7 -/

/-- **C7, counterexample.** JavaScript `String.replace` with a string
pattern replaces only the first occurrence: the href
"/en/docs/en/about" is rewritten to "/fr/docs/en/about", leaving the
second "/en/" segment intact, whereas the claim requires every
occurrence to be replaced. -/
theorem anchor_href_counterexample :
    translateAnchorHref (some "/en/docs/en/about".toList) "fr".toList =
      some "/fr/docs/en/about".toList ∧
    "/fr/docs/en/about".toList ≠ "/fr/docs/fr/about".toList :=
  ⟨rfl, by decide⟩

/-- **C7 (amended).** For every anchor and locale: an absent `href` is
left untouched; an `href` not containing "/en/" is left unchanged; and
an `href` of the form `a ++ "/en/" ++ b` whose first "/en/" occurrence
is the exhibited one is rewritten to `a ++ "/" ++ lang ++ "/" ++ b` —
only that first occurrence is replaced. -/
theorem anchor_href_first_only (lang : JStr) :
    translateAnchorHref none lang = none ∧
    (∀ h, includesJ enSeg h = false →
      translateAnchorHref (some h) lang = some h) ∧
    (∀ a b,
      (∀ i, i < a.length →
        startsWithJ enSeg ((a ++ enSeg ++ b).drop i) = false) →
      translateAnchorHref (some (a ++ enSeg ++ b)) lang =
        some (a ++ ['/'] ++ lang ++ ['/'] ++ b)) := by
  refine ⟨rfl, ?_, ?_⟩
  · intro h hinc
    simp [translateAnchorHref, hinc]
  · intro a b hfirst
    have hinc := includesJ_mid enSeg a b
    have hrep := replaceFirst_at enSeg (['/'] ++ lang ++ ['/']) a b hfirst
    simp only [translateAnchorHref, hinc, if_true, hrep]
    simp [List.append_assoc]

/-- Witness for C7 (amended): "/en/docs/en/x" = "" ++ "/en/" ++
"docs/en/x" with the first occurrence at position 0, so only that one
is rewritten; and "/fr/about" contains no "/en/" and is unchanged. -/
theorem anchor_href_first_only_witness :
    translateAnchorHref (some "/en/docs/en/x".toList) "fr".toList =
      some "/fr/docs/en/x".toList ∧
    translateAnchorHref (some "/fr/about".toList) "fr".toList =
      some "/fr/about".toList := by
  constructor
  · have h := (anchor_href_first_only "fr".toList).2.2 []
      "docs/en/x".toList (by decide)
    exact h
  · exact (anchor_href_first_only "fr".toList).2.1 "/fr/about".toList
      (by decide)

/-! ### Claim C8 -/

/-- **C8.** Any exception raised while transforming one (document,
locale) pair is caught inside the per-locale loop: the output for that
pair is skipped, the error message is logged, and the outputs produced
for all other locales — before and after the failing one — are exactly
those of the same run without the failing locale.  No exception aborts
the remaining locales. -/
theorem per_locale_errors_skip_and_continue {α : Type}
    (step : JStr → Except JStr α) (r1 r2 : List LangObj) (l : LangObj)
    (e : JStr) (hstep : step l.code = .error e) :
    (processLocales step (r1 ++ l :: r2)).1 =
      (processLocales step (r1 ++ r2)).1 ∧
    (l.createnew = true → e ∈ (processLocales step (r1 ++ l :: r2)).2) := by
  unfold processLocales
  rw [List.foldl_append, List.foldl_append, List.foldl_cons]
  generalize List.foldl (localeStep step) ([], []) r1 = acc
  obtain ⟨o, es⟩ := acc
  constructor
  · cases hc : l.createnew with
    | false => simp [localeStep, hc]
    | true =>
      simp only [localeStep, hc, Bool.not_true, Bool.false_eq_true, if_false,
        hstep]
      exact foldl_localeStep_fst_indep step r2 o (es ++ [e]) es
  · intro hc
    apply foldl_localeStep_logs_mono
    simp [localeStep, hc, hstep]

/-- Witness for C8: with a step that throws for the locale "bad", the
outputs are those of the registry without "bad" (locales "de" and "fr"
are both still produced), and the error is logged. -/
theorem per_locale_errors_skip_and_continue_witness :
    (processLocales
        (fun c => if c == "bad".toList then .error "boom".toList
                  else .ok c)
        [⟨"de".toList, true⟩, ⟨"bad".toList, true⟩, ⟨"fr".toList, true⟩]).1 =
      (processLocales
        (fun c => if c == "bad".toList then .error "boom".toList
                  else .ok c)
        [⟨"de".toList, true⟩, ⟨"fr".toList, true⟩]).1 ∧
    "boom".toList ∈
      (processLocales
        (fun c => if c == "bad".toList then .error "boom".toList
                  else .ok c)
        [⟨"de".toList, true⟩, ⟨"bad".toList, true⟩, ⟨"fr".toList, true⟩]).2 := by
  have h := per_locale_errors_skip_and_continue
    (fun c => if c == "bad".toList then .error "boom".toList else .ok c)
    [⟨"de".toList, true⟩] [⟨"fr".toList, true⟩] ⟨"bad".toList, true⟩
    "boom".toList rfl
  exact ⟨h.1, h.2 rfl⟩

end WebsiteTranslator
